import Mathlib

/-!
# Verification of `updstraight` (`main.go`)

A shallow embedding of the single-file Go program `updstraight`, which walks
the Emacs `straight.el` repository directories, pulls remote changes into
each, maintains a marker tag `Updated.At` recording the last-seen head,
counts and renders commits newer than the marker, and restarts Emacs once
after all workers join if any repository gained commits.

The embedding models:
* the go-git reference store of one repository as an association list of
  tag names to commit hashes inside a `GitState`;
* commits as records carrying an (abstract, `Nat`) hash, parent hashes, an
  integer committer timestamp in seconds, an author string, and a message;
* fallible library calls (`r.Tag`, `Storer.SetReference`, `r.CreateTag`,
  `r.Worktree`, `w.Pull`, `git.PlainOpen`, `r.Head`, `r.Remote`) by
  explicit `Except`/`Option GitErr` results, injected where the outcome
  depends on I/O outside the program;
* `r.Log (&LogOptions{Since: &t})` by the repository's traversal order
  `logOrder` (the commits reachable from head, in go-git's
  implementation-defined iteration order) filtered by the `Since` bound,
  which in go-git keeps a commit iff its committer time is not before `t`;
* the `text/template` rendering of `commitBrief` over byte (char) lists,
  with the terminal color wrapping and the date formatting abstracted into
  a `RenderEnv`, since both depend only on the terminal environment.
-/

/-- Errors of the collaborating go-git library, as far as the program
distinguishes them: the two sentinel errors it switches on, plus
arbitrary other I/O errors indexed by a code. -/
inductive GitErr where
  | tagNotFound
  | noErrAlreadyUpToDate
  | objectNotFound
  | other (code : Nat)
deriving DecidableEq, Repr

/-- A `plumbing.Reference`: a name paired with the commit hash it points to. -/
structure Reference where
  name : String
  hash : Nat
deriving DecidableEq, Repr

/-- A commit object: hash, parent hashes, committer timestamp
(`Committer.When`, in whole seconds), author identity and message. -/
structure Commit where
  hash : Nat
  parents : List Nat
  committerWhen : Int
  author : String
  message : String
deriving DecidableEq, Repr

/-- The repository-local state the program reads and writes: the object
store `commits`, the current head hash, the reference (tag) store, and
`logOrder`, the list of commits reachable from head in the traversal
order `r.Log` uses (implementation-defined by go-git). -/
structure GitState where
  commits : List Commit
  headHash : Nat
  tags : List (String × Nat)
  logOrder : List Commit
deriving DecidableEq, Repr

/-- `const TagName = "Updated.At"` (main.go line 24). -/
def TagName : String := "Updated.At"

/-- Injected outcomes of the three fallible reference-store calls inside
`CreateOrModifyGitTag`: an I/O failure of `r.Tag` other than
`ErrTagNotFound`, and failures of `Storer.SetReference` and
`r.CreateTag`. `none` means the call succeeds. -/
structure RefIO where
  lookupErr : Option GitErr
  setErr : Option GitErr
  createErr : Option GitErr
deriving DecidableEq, Repr

/-- All reference-store calls succeed. -/
def noErrIO : RefIO := ⟨none, none, none⟩

/-- go-git `Storer.SetReference` (also the effect of a lightweight
`CreateTag`): insert or update the entry for `ref.name`. -/
def GitState.setReference (s : GitState) (ref : Reference) : GitState :=
  { s with tags := (ref.name, ref.hash) :: s.tags.filter (fun p => p.1 ≠ ref.name) }

/-- go-git `r.Tag t`: an injected I/O failure if any, otherwise the stored
reference named `t`, otherwise `ErrTagNotFound`. -/
def GitState.Tag (s : GitState) (io : RefIO) (t : String) : Except GitErr Reference :=
  match io.lookupErr with
  | some e => .error e
  | none =>
    match s.tags.find? (fun p => p.1 = t) with
    | some p => .ok ⟨p.1, p.2⟩
    | none => .error .tagNotFound

/-- `CreateOrModifyGitTag` (main.go lines 41-55).  Looks up tag `t`;
on success repoints the found reference to `ref.Hash()` via
`SetReference`; on `ErrTagNotFound` creates a tag under the hardcoded
name `TagName` at `ref.Hash()`; on any other lookup error the Go
`switch` matches no case and the function falls through to
`return tag, nil` with `tag == nil`, modelled as `(s, none, none)`.
Returns (new state, returned reference, returned error). -/
def CreateOrModifyGitTag (s : GitState) (io : RefIO) (t : String) (ref : Reference) :
    GitState × Option Reference × Option GitErr :=
  match s.Tag io t with
  | .ok tag =>
    match io.setErr with
    | some e => (s, none, some e)
    | none =>
      let tag' : Reference := ⟨tag.name, ref.hash⟩
      (s.setReference tag', some tag', none)
  | .error .tagNotFound =>
    match io.createErr with
    | some e => (s, none, some e)
    | none =>
      let tag' : Reference := ⟨TagName, ref.hash⟩
      (s.setReference tag', some tag', none)
  | .error _ => (s, none, none)

/-- `PullGitChanges` (main.go lines 58-71).  `wt` is the outcome of
`r.Worktree()`; `pullOutcome` is the error value of `w.Pull` (`none` is a
successful pull that changed the worktree).  The `switch` sends
`NoErrAlreadyUpToDate` to `(false, nil)` and every other outcome —
success or genuine error — to `(true, nil)`. -/
def PullGitChanges (wt : Except GitErr Unit) (pullOutcome : Option GitErr) :
    Bool × Option GitErr :=
  match wt with
  | .error e => (false, some e)
  | .ok _ =>
    match pullOutcome with
    | some .noErrAlreadyUpToDate => (false, none)
    | _ => (true, none)

/-- The terminal/locale-dependent part of rendering: what
`termenv.Output.Color c` wraps around a string (`colorPre`/`colorPost`,
empty for a dumb terminal) and what `Committer.When.Format "2006-01-02"`
produces for a timestamp.  Rendered text is modelled as `List Char`. -/
structure RenderEnv where
  colorPre : String → List Char
  colorPost : List Char
  fmtDate : Int → List Char

/-- The template function `Color c` of termenv: wrap `s` in the color
sequence for `c`. -/
def RenderEnv.color (env : RenderEnv) (c : String) (s : List Char) : List Char :=
  env.colorPre c ++ s ++ env.colorPost

/-- A dumb-terminal environment: colors are identity, dates render empty. -/
def plainEnv : RenderEnv := ⟨fun _ => [], [], fun _ => []⟩

/-- One lowercase hex digit. -/
def hexDigit (n : Nat) : Char :=
  if n < 10 then Char.ofNat (48 + n) else Char.ofNat (87 + n)

/-- Big-endian fixed-width hex rendering: `hexChars w v` is the `w`
low-order hex digits of `v`, most significant first. -/
def hexChars : Nat → Nat → List Char
  | 0, _ => []
  | w + 1, v => hexChars w (v / 16) ++ [hexDigit (v % 16)]

/-- `plumbing.Hash.String`: the 40 lowercase hex characters of a SHA-1. -/
def hashString (h : Nat) : List Char := hexChars 40 h

/-- `slice .Hash.String 0 6` of the template: the first 6 characters of
the full hex hash. -/
def abbrevHash (h : Nat) : List Char := (hashString h).take 6

/-- `strings.ReplaceAll msg "\n" "\n\t\t"` as the template's `replaceAll`
uses it: every newline gains the two-tab indentation after it. -/
def indentNL : List Char → List Char
  | [] => []
  | c :: rest => if c = '\n' then '\n' :: '\t' :: '\t' :: indentNL rest else c :: indentNL rest

/-- The `commitBrief` template (main.go lines 73-75) rendered for one
commit: a tab, the colored date, a space, the colored abbreviated hash, a
space, the colored author, a newline, two tabs, the colored re-indented
message, a final newline. -/
def commitBrief (env : RenderEnv) (c : Commit) : List Char :=
  ['\t'] ++ env.color "140" (env.fmtDate c.committerWhen) ++ [' ']
    ++ env.color "104" (abbrevHash c.hash) ++ [' ']
    ++ env.color "111" c.author.data
    ++ ['\n', '\t', '\t'] ++ env.color "108" (indentNL c.message.data) ++ ['\n']

/-- `GetGitLog` (main.go lines 79-118) on the pure repository state:
resolve the marker commit (`r.CommitObject ref.Hash()`; failure returns
the empty buffer, the error and `n` untouched), set
`t := c.Committer.When.Add(time.Second)`, iterate
`r.Log (&LogOptions{Since: &t})` — the commits of `logOrder` whose
committer time is not before `t` — and for each increment `*n` and append
its `commitBrief` rendering to the buffer.  The fixed template always
parses and its field accesses always render, so the iteration itself is
total here; the worker-level embedding below injects arbitrary outcomes
instead.  Returns (buffer, error, final `*n`). -/
def GetGitLog (env : RenderEnv) (s : GitState) (refHash : Nat) (n : Nat) :
    List Char × Option GitErr × Nat :=
  match s.commits.find? (fun c => c.hash = refHash) with
  | none => ([], some .objectNotFound, n)
  | some c =>
    let t := c.committerWhen + 1
    let selected := s.logOrder.filter (fun d => t ≤ d.committerWhen)
    ((selected.map (commitBrief env)).flatten, none, n + selected.length)

/-- The marker: the hash the tag store records under `TagName`. -/
def markerHash (s : GitState) : Option Nat :=
  (s.tags.find? (fun p => p.1 = TagName)).map (fun p => p.2)

/-- The hashes present in the repository's object store. -/
def GitState.hashes (s : GitState) : List Nat := s.commits.map Commit.hash

/-- `Ancestor cs a b`: in the object store `cs`, commit `a` is reachable
from commit `b` by following parent hashes (reflexively). -/
inductive Ancestor (cs : List Commit) : Nat → Nat → Prop where
  | refl (h : Nat) : Ancestor cs h h
  | step {a b : Nat} (c : Commit) (hc : c ∈ cs) (hb : c.hash = b)
      (p : Nat) (hp : p ∈ c.parents) (ha : Ancestor cs a p) : Ancestor cs a b

/-- Head points at a commit that exists in the object store. -/
def GitState.WF (s : GitState) : Prop := s.headHash ∈ s.hashes

/-- The effect of a successful `w.Pull` (fetch plus merge/fast-forward,
per the glossary): the tag store is untouched, the object store only
grows, and the new head exists and has the old head as an ancestor. -/
structure PullFF (s s' : GitState) : Prop where
  tags_eq : s'.tags = s.tags
  commits_sub : ∀ c ∈ s.commits, c ∈ s'.commits
  head_wf : s'.headHash ∈ s'.hashes
  ff : Ancestor s'.commits s.headHash s'.headHash

/-- One error-free run of the worker's state-changing phase on one
repository: `CreateOrModifyGitTag r TagName head` moves the marker to the
current head, then `PullGitChanges` pulls (some fast-forward outcome). -/
def RunStep (s s' : GitState) : Prop :=
  ∃ s1 tag, CreateOrModifyGitTag s noErrIO TagName ⟨"HEAD", s.headHash⟩ = (s1, some tag, none)
    ∧ PullFF s1 s'

/-- A (possibly empty) sequence of runs. -/
inductive RunTrace : GitState → GitState → Prop where
  | refl (s : GitState) : RunTrace s s
  | step {s t u : GitState} (htu : RunTrace s t) (hstep : RunStep t u) : RunTrace s u

/-- One full sync cycle of the worker with every library call succeeding:
move the marker to head, pull (an arbitrary state transformer standing
for the remote interaction), then count commits since the marker with
`GetGitLog`.  Returns the final state and the count.  The fallback arm is
unreachable under `noErrIO`. -/
def runCycle (env : RenderEnv) (s : GitState) (pull : GitState → GitState) : GitState × Nat :=
  match CreateOrModifyGitTag s noErrIO TagName ⟨"HEAD", s.headHash⟩ with
  | (s1, some tag, none) =>
    let s2 := pull s1
    (s2, (GetGitLog env s2 tag.hash 0).2.2)
  | (s1, _, _) => (s1, 0)

/-- The outcome of one worker: `log.Fatal e` (which kills the whole
process), or normal completion carrying the value of the shared
`restartEmacsIsNeeded` flag after this worker and the log text the worker
printed (`none` when `n = 0`; the two colored header lines naming the
remote URL and the count are elided). -/
inductive WorkerOutcome where
  | fatal (e : GitErr)
  | done (restartFlag : Bool) (printed : Option (List Char))
deriving DecidableEq, Repr

/-- `UpdateEmacsStraightRepo` (main.go lines 122-163), one worker.
`openErr`, `headRes`, `remoteErr` are the injected outcomes of
`git.PlainOpen`, `r.Head()` and `r.Remote "origin"`; the tag step runs
the embedded `CreateOrModifyGitTag`; the pull step runs the embedded
`PullGitChanges`; `logResult` is the injected `(l, err, n)` outcome of
`GetGitLog(r, tag, &n)` — injected rather than computed because a failing
iteration leaves behind an arbitrary partial buffer and count, which is
exactly what the claims about this function are about.  `flag` is the
shared `restartEmacsIsNeeded` before this worker runs. -/
def UpdateEmacsStraightRepo (openErr : Option GitErr) (headRes : Except GitErr Reference)
    (remoteErr : Option GitErr) (s : GitState) (io : RefIO)
    (wt : Except GitErr Unit) (pullOutcome : Option GitErr)
    (logResult : List Char × Option GitErr × Nat) (flag : Bool) : WorkerOutcome :=
  match openErr with
  | some e => .fatal e
  | none =>
  match headRes with
  | .error e => .fatal e
  | .ok head =>
  match remoteErr with
  | some e => .fatal e
  | none =>
  match CreateOrModifyGitTag s io TagName head with
  | (_, _, some e) => .fatal e
  | (_, _, none) =>
  match PullGitChanges wt pullOutcome with
  | (_, some e) => .fatal e
  | (_, none) =>
    if logResult.2.2 > 0 then .done true (some logResult.1) else .done flag none

/-- The effect of one worker on `restartEmacsIsNeeded` (main.go lines
154-155): set it to true when the worker counted commits, leave it alone
otherwise. -/
def workerFlagUpdate (flag : Bool) (n : Nat) : Bool :=
  if n > 0 then true else flag

/-- The value of `restartEmacsIsNeeded` after all workers have applied
their updates to the initially-false flag, in the (scheduler-chosen)
order given by `counts`. -/
def finalRestartFlag (counts : List Nat) : Bool :=
  counts.foldl workerFlagUpdate false

/-- How many times `main` (lines 194-211) invokes `restartEmacs` after
`wg.Wait()`: once if the flag is set, not at all otherwise. -/
def restartInvocations (counts : List Nat) : Nat :=
  if finalRestartFlag counts then 1 else 0

/-- The fixed glob pattern `filepath.Join(home, ".emacs.d/straight/repos", "*")`. -/
def straightReposGlob (home : String) : String :=
  home ++ "/.emacs.d/straight/repos/*"

/-- `ListEmacsStraightRepos` (main.go lines 31-38): resolve the home
directory (`os.UserHomeDir`, injected), fail on its error, otherwise
return whatever the filesystem (`glob`, injected; `filepath.Glob` of the
fixed valid pattern cannot itself error) matches. -/
def ListEmacsStraightRepos (home : Except GitErr String) (glob : String → List String) :
    Except GitErr (List String) :=
  match home with
  | .error e => .error e
  | .ok h => .ok (glob (straightReposGlob h))

/-- C1: with the worktree obtained, `PullGitChanges` returns
`changed = false` exactly when `w.Pull` reports already-up-to-date, and
returns `(changed = true, no error)` for every other pull outcome,
genuine errors included. -/
theorem PullGitChanges_changed_iff_upToDate (po : Option GitErr) :
    ((PullGitChanges (.ok ()) po).1 = false ↔ po = some .noErrAlreadyUpToDate)
    ∧ (po ≠ some .noErrAlreadyUpToDate → PullGitChanges (.ok ()) po = (true, none)) := by
  constructor
  · cases po with
    | none => simp [PullGitChanges]
    | some e => cases e <;> simp [PullGitChanges]
  · intro h
    cases po with
    | none => simp [PullGitChanges]
    | some e => cases e <;> simp_all [PullGitChanges]

/-- C1 at a concrete input: a pull that fails with a genuine error is
still reported as `(true, nil)`. -/
theorem PullGitChanges_changed_iff_upToDate_app :
    PullGitChanges (.ok ()) (some (.other 7)) = (true, none) :=
  (PullGitChanges_changed_iff_upToDate (some (.other 7))).2 (by decide)

/-- C9: the repository lister fails exactly on a home-directory failure,
returns precisely the glob matches of the fixed pattern under home
otherwise, and an empty match list is an empty result, not an error. -/
theorem ListEmacsStraightRepos_contract (glob : String → List String) :
    (∀ e, ListEmacsStraightRepos (.error e) glob = .error e)
    ∧ (∀ h, ListEmacsStraightRepos (.ok h) glob = .ok (glob (straightReposGlob h)))
    ∧ (∀ h, glob (straightReposGlob h) = [] → ListEmacsStraightRepos (.ok h) glob = .ok []) := by
  refine ⟨fun e => rfl, fun h => rfl, fun h hg => ?_⟩
  simp [ListEmacsStraightRepos, hg]

/-- C9 at a concrete input: an empty filesystem yields `ok []`. -/
theorem ListEmacsStraightRepos_contract_app :
    ListEmacsStraightRepos (.ok "/home/u") (fun _ => []) = .ok [] :=
  (ListEmacsStraightRepos_contract (fun _ => [])).2.2 "/home/u" rfl

/-- Folding the per-worker flag updates over any schedule order computes
"some worker counted commits". -/
theorem foldl_workerFlagUpdate (l : List Nat) (b : Bool) :
    l.foldl workerFlagUpdate b = (b || l.any (fun n => decide (0 < n))) := by
  induction l generalizing b with
  | nil => simp
  | cons x xs ih =>
    simp only [List.foldl_cons, List.any_cons, ih, workerFlagUpdate]
    by_cases hx : x > 0 <;> simp [hx, Bool.or_assoc]

/-- C5: the restart trigger fires at most once per run; it fires exactly
when some worker observed a positive count; a worker never clears a set
flag; and the outcome is the same for every scheduler-chosen completion
order of the workers. -/
theorem restartTrigger_once_iff_someCount (counts : List Nat) :
    restartInvocations counts ≤ 1
    ∧ (restartInvocations counts = 1 ↔ ∃ n ∈ counts, 0 < n)
    ∧ (∀ n, workerFlagUpdate true n = true)
    ∧ (∀ counts', counts.Perm counts' →
        restartInvocations counts = restartInvocations counts') := by
  have hfold : ∀ l : List Nat, finalRestartFlag l = l.any (fun n => decide (0 < n)) := by
    intro l
    simp [finalRestartFlag, foldl_workerFlagUpdate]
  refine ⟨?_, ?_, ?_, ?_⟩
  · unfold restartInvocations
    split <;> simp
  · unfold restartInvocations
    rw [hfold]
    have hany : (counts.any (fun n => decide (0 < n)) = true) ↔ ∃ n ∈ counts, 0 < n := by
      simp [List.any_eq_true]
    constructor
    · intro h1
      by_cases hb : counts.any (fun n => decide (0 < n)) = true
      · exact hany.mp hb
      · rw [if_neg hb] at h1
        exact absurd h1 (by decide)
    · intro hex
      rw [if_pos (hany.mpr hex)]
  · intro n
    unfold workerFlagUpdate
    split <;> rfl
  · intro counts' hperm
    unfold restartInvocations
    rw [hfold, hfold]
    have hmem : ∀ m : Nat, m ∈ counts ↔ m ∈ counts' := fun m => hperm.mem_iff
    cases h : counts'.any (fun n => decide (0 < n)) with
    | true =>
      have : counts.any (fun n => decide (0 < n)) = true := by
        rw [List.any_eq_true] at h ⊢
        obtain ⟨m, hm, hp⟩ := h
        exact ⟨m, (hmem m).mpr hm, hp⟩
      rw [this]
    | false =>
      have : counts.any (fun n => decide (0 < n)) = false := by
        rw [List.any_eq_false] at h ⊢
        intro m hm
        exact h m ((hmem m).mp hm)
      rw [this]

/-- C5 at a concrete input: two workers with counts 0 and 2, in either
completion order, trigger exactly one restart. -/
theorem restartTrigger_once_iff_someCount_app :
    restartInvocations [0, 2] = restartInvocations [2, 0] :=
  (restartTrigger_once_iff_someCount [0, 2]).2.2.2 [2, 0] (by decide)

/-- C3: with the reference store responding, `CreateOrModifyGitTag`
repoints an existing tag named `t` to `ref`'s hash (and a subsequent
lookup of that name sees only the new hash — move semantics), while an
absent tag is created under the hardcoded `TagName` at `ref`'s hash,
whatever the `t` parameter was. -/
theorem CreateOrModifyGitTag_move_or_create (s : GitState) (t : String) (ref : Reference) :
    (∀ p, s.tags.find? (fun q => q.1 = t) = some p →
        CreateOrModifyGitTag s noErrIO t ref
          = (s.setReference ⟨t, ref.hash⟩, some ⟨t, ref.hash⟩, none))
    ∧ (s.tags.find? (fun q => q.1 = t) = none →
        CreateOrModifyGitTag s noErrIO t ref
          = (s.setReference ⟨TagName, ref.hash⟩, some ⟨TagName, ref.hash⟩, none))
    ∧ (∀ nm h, ((s.setReference ⟨nm, h⟩).tags.find? (fun q => q.1 = nm)) = some (nm, h)) := by
  refine ⟨?_, ?_, ?_⟩
  · intro p hp
    have h1 : p.1 = t := by simpa using List.find?_some hp
    simp [CreateOrModifyGitTag, GitState.Tag, noErrIO, hp, h1]
  · intro hp
    simp [CreateOrModifyGitTag, GitState.Tag, noErrIO, hp]
  · intro nm h
    have htags : (s.setReference ⟨nm, h⟩).tags
        = (nm, h) :: s.tags.filter (fun p => p.1 ≠ nm) := rfl
    rw [htags]
    exact List.find?_cons_of_pos _ (by simp)

/-- C3 at a concrete input: with no tag present, a call with a different
name parameter still creates the tag under `Updated.At`. -/
theorem CreateOrModifyGitTag_move_or_create_app :
    CreateOrModifyGitTag ⟨[], 0, [], []⟩ noErrIO "Other.Name" ⟨"HEAD", 9⟩
      = (GitState.setReference ⟨[], 0, [], []⟩ ⟨TagName, 9⟩, some ⟨TagName, 9⟩, none) :=
  (CreateOrModifyGitTag_move_or_create ⟨[], 0, [], []⟩ "Other.Name" ⟨"HEAD", 9⟩).2.1 rfl

/-- C2, counterexample to the claim as stated: an I/O failure of the tag
lookup whose error is not tag-not-found is swallowed —
`CreateOrModifyGitTag` returns a nil reference and a nil error (the Go
`switch` has no `default` arm), not a non-nil error. -/
theorem CreateOrModifyGitTag_lookupFailure_swallowed :
    CreateOrModifyGitTag ⟨[], 0, [], []⟩ ⟨some (.other 3), none, none⟩ TagName ⟨"HEAD", 7⟩
      = (⟨[], 0, [], []⟩, none, none) := rfl

/-- C2 (amended): a failing reference write and a failing tag creation
surface as non-nil errors, and the worker aborts (`log.Fatal`) on any
non-nil error from the tag step; a failing tag lookup other than
tag-not-found, however, produces a nil error. -/
theorem CreateOrModifyGitTag_write_errors_fatal (s : GitState) (io : RefIO) (t : String)
    (ref : Reference) :
    (∀ p e, s.tags.find? (fun q => q.1 = t) = some p → io.lookupErr = none →
        io.setErr = some e → (CreateOrModifyGitTag s io t ref).2.2 = some e)
    ∧ (∀ e, s.tags.find? (fun q => q.1 = t) = none → io.lookupErr = none →
        io.createErr = some e → (CreateOrModifyGitTag s io t ref).2.2 = some e)
    ∧ (∀ e, io.lookupErr = some e → e ≠ .tagNotFound →
        (CreateOrModifyGitTag s io t ref).2.2 = none)
    ∧ (∀ head wt po lr flag e, (CreateOrModifyGitTag s io TagName head).2.2 = some e →
        UpdateEmacsStraightRepo none (.ok head) none s io wt po lr flag = .fatal e) := by
  refine ⟨?_, ?_, ?_, ?_⟩
  · intro p e hp hl hset
    simp [CreateOrModifyGitTag, GitState.Tag, hl, hp, hset]
  · intro e hp hl hcreate
    simp [CreateOrModifyGitTag, GitState.Tag, hl, hp, hcreate]
  · intro e hl hne
    cases e with
    | tagNotFound => exact absurd rfl hne
    | noErrAlreadyUpToDate => simp [CreateOrModifyGitTag, GitState.Tag, hl]
    | objectNotFound => simp [CreateOrModifyGitTag, GitState.Tag, hl]
    | other k => simp [CreateOrModifyGitTag, GitState.Tag, hl]
  · intro head wt po lr flag e htag
    rcases hcm : CreateOrModifyGitTag s io TagName head with ⟨s1, r1, e1⟩
    rw [hcm] at htag
    simp only at htag
    subst htag
    simp [UpdateEmacsStraightRepo, hcm]

/-- C2 at a concrete input: a failing reference write surfaces as a
non-nil error and the worker dies on it. -/
theorem CreateOrModifyGitTag_write_errors_fatal_app :
    UpdateEmacsStraightRepo none (.ok ⟨"HEAD", 4⟩) none ⟨[], 0, [("Updated.At", 1)], []⟩
      ⟨none, some (.other 2), none⟩ (.ok ()) none ([], none, 0) false = .fatal (.other 2) :=
  (CreateOrModifyGitTag_write_errors_fatal ⟨[], 0, [("Updated.At", 1)], []⟩
      ⟨none, some (.other 2), none⟩ TagName ⟨"HEAD", 4⟩).2.2.2
    ⟨"HEAD", 4⟩ (.ok ()) none ([], none, 0) false (.other 2) (by decide)

/-- A two-commit sample: commit 1 (time 10) is the marker, commit 2
(time 11) arrived after it. -/
def sampleLog : GitState :=
  ⟨[⟨1, [], 10, "a", "x"⟩], 1, [], [⟨1, [], 10, "a", "x"⟩, ⟨2, [1], 11, "b", "y"⟩]⟩

/-- C4: when the marker commit resolves, `GetGitLog` reports no error and
adds to `n` exactly one count per traversed commit whose committer
timestamp is at or after the marker's timestamp plus one second; every
selected commit is strictly newer than the marker, so the marker commit
itself is never selected. -/
theorem GetGitLog_count_since_marker (env : RenderEnv) (s : GitState) (refHash : Nat)
    (n : Nat) (c : Commit)
    (hc : s.commits.find? (fun d => d.hash = refHash) = some c) :
    (GetGitLog env s refHash n).2.1 = none
    ∧ (GetGitLog env s refHash n).2.2
        = n + (s.logOrder.filter (fun d => decide (c.committerWhen + 1 ≤ d.committerWhen))).length
    ∧ (∀ d ∈ s.logOrder.filter (fun d => decide (c.committerWhen + 1 ≤ d.committerWhen)),
        c.committerWhen < d.committerWhen)
    ∧ c ∉ s.logOrder.filter (fun d => decide (c.committerWhen + 1 ≤ d.committerWhen)) := by
  refine ⟨?_, ?_, ?_, ?_⟩
  · simp [GetGitLog, hc]
  · simp [GetGitLog, hc]
  · intro d hd
    have h2 : c.committerWhen + 1 ≤ d.committerWhen := by
      simpa using (List.mem_filter.mp hd).2
    omega
  · intro hmem
    have h2 : c.committerWhen + 1 ≤ c.committerWhen := by
      simpa using (List.mem_filter.mp hmem).2
    omega

/-- C4 at a concrete input: of the two commits, only the one a second
newer than the marker is counted, and no error is reported. -/
theorem GetGitLog_count_since_marker_app :
    (GetGitLog plainEnv sampleLog 1 0).2.1 = none
    ∧ (GetGitLog plainEnv sampleLog 1 0).2.2 = 1 := by
  have h := GetGitLog_count_since_marker plainEnv sampleLog 1 0 ⟨1, [], 10, "a", "x"⟩ (by decide)
  refine ⟨h.1, ?_⟩
  rw [h.2.1]
  decide

/-- A successful `r.Worktree()` means `PullGitChanges` never returns an
error, whatever the pull outcome was. -/
theorem PullGitChanges_ok_no_error (po : Option GitErr) :
    (PullGitChanges (.ok ()) po).2 = none := by
  cases po with
  | none => rfl
  | some e => cases e <;> rfl

/-- C10: the worker ignores `GetGitLog`'s error: with every earlier stage
succeeding, the worker never aborts, its outcome does not depend on the
log error at all, and a positive count — even one accumulated before a
mid-iteration failure — sets the restart flag and prints the partial
text. -/
theorem worker_ignores_log_error (s : GitState) (io : RefIO) (head : Reference)
    (po : Option GitErr) (l : List Char) (e : Option GitErr) (n : Nat) (flag : Bool)
    (htag : (CreateOrModifyGitTag s io TagName head).2.2 = none) :
    UpdateEmacsStraightRepo none (.ok head) none s io (.ok ()) po (l, e, n) flag
      = (if 0 < n then .done true (some l) else .done flag none)
    ∧ UpdateEmacsStraightRepo none (.ok head) none s io (.ok ()) po (l, e, n) flag
      = UpdateEmacsStraightRepo none (.ok head) none s io (.ok ()) po (l, none, n) flag
    ∧ (0 < n →
        UpdateEmacsStraightRepo none (.ok head) none s io (.ok ()) po (l, e, n) flag
          = .done true (some l)) := by
  have hpull := PullGitChanges_ok_no_error po
  rcases hcm : CreateOrModifyGitTag s io TagName head with ⟨s1, r1, e1⟩
  rw [hcm] at htag
  simp only at htag
  subst htag
  rcases hpq : PullGitChanges (.ok ()) po with ⟨b, pe⟩
  rw [hpq] at hpull
  simp only at hpull
  subst hpull
  refine ⟨?_, ?_, ?_⟩
  · simp [UpdateEmacsStraightRepo, hcm, hpq]
  · simp [UpdateEmacsStraightRepo, hcm, hpq]
  · intro h0n
    simp [UpdateEmacsStraightRepo, hcm, hpq, h0n]

/-- C10 at a concrete input: a log step that failed after counting two
commits still completes the worker, sets the flag and prints the partial
buffer. -/
theorem worker_ignores_log_error_app :
    UpdateEmacsStraightRepo none (.ok ⟨"HEAD", 4⟩) none ⟨[], 0, [], []⟩ noErrIO
      (.ok ()) none (['p'], some (.other 9), 2) false = .done true (some ['p']) :=
  (worker_ignores_log_error ⟨[], 0, [], []⟩ noErrIO ⟨"HEAD", 4⟩ none ['p']
      (some (.other 9)) 2 false (by decide)).2.2 (by decide)

/-- Fixed-width hex rendering has exactly the requested width. -/
theorem hexChars_length (w v : Nat) : (hexChars w v).length = w := by
  induction w generalizing v with
  | zero => rfl
  | succ k ih => simp [hexChars, ih]

/-- A digit below 16 renders as a hex character. -/
theorem hexDigit_mem (n : Nat) (h : n < 16) : hexDigit n ∈ "0123456789abcdef".data := by
  have hall : ∀ m < 16, hexDigit m ∈ "0123456789abcdef".data := by decide
  exact hall n h

/-- Every character of a hex rendering is a hex character. -/
theorem hexChars_mem (w v : Nat) : ∀ ch ∈ hexChars w v, ch ∈ "0123456789abcdef".data := by
  induction w generalizing v with
  | zero => intro ch h; simp [hexChars] at h
  | succ k ih =>
    intro ch h
    simp only [hexChars, List.mem_append, List.mem_singleton] at h
    rcases h with h | h
    · exact ih _ ch h
    · subst h
      exact hexDigit_mem _ (Nat.mod_lt _ (by norm_num))

/-- In the re-indented message, every newline is immediately followed by
the two-tab indentation. -/
theorem indentNL_after_newline (l : List Char) :
    ∀ i, (indentNL l)[i]? = some '\n' →
      (indentNL l)[i + 1]? = some '\t' ∧ (indentNL l)[i + 2]? = some '\t' := by
  induction l with
  | nil => intro i h; simp [indentNL] at h
  | cons c rest ih =>
    intro i h
    by_cases hc : c = '\n'
    · subst hc
      have hred : indentNL ('\n' :: rest) = '\n' :: '\t' :: '\t' :: indentNL rest := by
        simp [indentNL]
      rw [hred] at h ⊢
      match i with
      | 0 =>
        constructor
        · rw [List.getElem?_cons_succ, List.getElem?_cons_zero]
        · rw [show 0 + 2 = (0 + 1) + 1 by omega, List.getElem?_cons_succ,
            List.getElem?_cons_succ, List.getElem?_cons_zero]
      | 1 =>
        rw [List.getElem?_cons_succ, List.getElem?_cons_zero] at h
        exact absurd (Option.some.inj h) (by decide)
      | 2 =>
        rw [List.getElem?_cons_succ, List.getElem?_cons_succ,
          List.getElem?_cons_zero] at h
        exact absurd (Option.some.inj h) (by decide)
      | k + 3 =>
        have hk := ih k (by
          rw [List.getElem?_cons_succ, List.getElem?_cons_succ,
            List.getElem?_cons_succ] at h
          exact h)
        constructor
        · rw [show k + 3 + 1 = (k + 1) + 1 + 1 + 1 by omega, List.getElem?_cons_succ,
            List.getElem?_cons_succ, List.getElem?_cons_succ]
          exact hk.1
        · rw [show k + 3 + 2 = (k + 2) + 1 + 1 + 1 by omega, List.getElem?_cons_succ,
            List.getElem?_cons_succ, List.getElem?_cons_succ]
          exact hk.2
    · have hred : indentNL (c :: rest) = c :: indentNL rest := by
        simp [indentNL, hc]
      rw [hred] at h ⊢
      match i with
      | 0 =>
        rw [List.getElem?_cons_zero] at h
        exact absurd (Option.some.inj h) hc
      | k + 1 =>
        rw [List.getElem?_cons_succ] at h
        have hk := ih k h
        constructor
        · rw [show k + 1 + 1 = (k + 1) + 1 by omega, List.getElem?_cons_succ]
          exact hk.1
        · rw [show k + 1 + 2 = (k + 2) + 1 by omega, List.getElem?_cons_succ]
          exact hk.2

/-- C8: the rendered block places `abbrevHash` — the first 6 of the 40
hex characters of the full hash — in the hash field and the re-indented
message in the message field; the abbreviation is a length-6 prefix of
the full hex string, and in the rendered message every newline is
followed by the two-tab indentation. -/
theorem commitBrief_hash_and_indent (env : RenderEnv) (c : Commit) :
    commitBrief env c
      = ['\t'] ++ env.color "140" (env.fmtDate c.committerWhen) ++ [' ']
        ++ env.color "104" (abbrevHash c.hash) ++ [' ']
        ++ env.color "111" c.author.data
        ++ ['\n', '\t', '\t'] ++ env.color "108" (indentNL c.message.data) ++ ['\n']
    ∧ abbrevHash c.hash ++ (hashString c.hash).drop 6 = hashString c.hash
    ∧ (abbrevHash c.hash).length = 6
    ∧ (hashString c.hash).length = 40
    ∧ (∀ ch ∈ hashString c.hash, ch ∈ "0123456789abcdef".data)
    ∧ (∀ i, (indentNL c.message.data)[i]? = some '\n' →
        (indentNL c.message.data)[i + 1]? = some '\t'
        ∧ (indentNL c.message.data)[i + 2]? = some '\t') := by
  refine ⟨rfl, List.take_append_drop 6 (hashString c.hash), ?_,
    hexChars_length 40 c.hash, hexChars_mem 40 c.hash, indentNL_after_newline c.message.data⟩
  simp [abbrevHash, hashString, List.length_take, hexChars_length]

/-- C8 at a concrete input: in the re-indented two-line message `"a\nb"`,
the newline at index 1 is followed by two tabs. -/
theorem commitBrief_hash_and_indent_app :
    (indentNL ("a\nb".data))[1 + 1]? = some '\t'
    ∧ (indentNL ("a\nb".data))[1 + 2]? = some '\t' :=
  (commitBrief_hash_and_indent plainEnv ⟨1, [], 0, "au", "a\nb"⟩).2.2.2.2.2 1 (by decide)

/-- With no injected reference-store failures, the tag step under the
worker's fixed `TagName` always succeeds and moves the marker to `ref`'s
hash (a found tag named by the lookup predicate is itself named
`TagName`). -/
theorem CreateOrModifyGitTag_TagName_ok (s : GitState) (ref : Reference) :
    CreateOrModifyGitTag s noErrIO TagName ref
      = (s.setReference ⟨TagName, ref.hash⟩, some ⟨TagName, ref.hash⟩, none) := by
  cases hfind : s.tags.find? (fun p => p.1 = TagName) with
  | none => simp [CreateOrModifyGitTag, GitState.Tag, noErrIO, hfind]
  | some p =>
    have hp : p.1 = TagName := by simpa using List.find?_some hfind
    simp [CreateOrModifyGitTag, GitState.Tag, noErrIO, hfind, hp]

/-- The error-free sync cycle in closed form: marker to head, pull, count
commits since the (pre-pull) head. -/
theorem runCycle_eq (env : RenderEnv) (s : GitState) (pull : GitState → GitState) :
    runCycle env s pull
      = (pull (s.setReference ⟨TagName, s.headHash⟩),
         (GetGitLog env (pull (s.setReference ⟨TagName, s.headHash⟩)) s.headHash 0).2.2) := by
  unfold runCycle
  rw [CreateOrModifyGitTag_TagName_ok]

/-- A sync cycle whose pull is a no-op counts nothing when committer
timestamps are monotone along the traversal: none after the head's. -/
theorem runCycle_noChange_count_zero (env : RenderEnv) (s : GitState) (hc : Commit)
    (hfind : s.commits.find? (fun d => d.hash = s.headHash) = some hc)
    (hmono : ∀ d ∈ s.logOrder, d.committerWhen ≤ hc.committerWhen) :
    (runCycle env s id).2 = 0 := by
  rw [runCycle_eq]
  have hcom : (s.setReference ⟨TagName, s.headHash⟩).commits = s.commits := rfl
  have hlog : (s.setReference ⟨TagName, s.headHash⟩).logOrder = s.logOrder := rfl
  have hnil : s.logOrder.filter (fun d => decide (hc.committerWhen + 1 ≤ d.committerWhen))
      = [] := by
    rw [List.filter_eq_nil_iff]
    intro d hd
    simp only [decide_eq_true_eq]
    have := hmono d hd
    omega
  simp [GetGitLog, hcom, hlog, hfind, hnil]

/-- C6 (amended): running the sync twice in a row with no intervening
remote changes yields a second-run count of 0, provided committer
timestamps in the repository after the first run are monotone: no
traversed commit is stamped later than the head commit.  (Without that
proviso the count can be positive — see the counterexample with a
clock-skewed ancestor.) -/
theorem runCycle_second_count_zero (env : RenderEnv) (s0 : GitState)
    (p : GitState → GitState) (hc : Commit)
    (hfind : (runCycle env s0 p).1.commits.find?
        (fun d => d.hash = (runCycle env s0 p).1.headHash) = some hc)
    (hmono : ∀ d ∈ (runCycle env s0 p).1.logOrder, d.committerWhen ≤ hc.committerWhen) :
    (runCycle env (runCycle env s0 p).1 id).2 = 0 :=
  runCycle_noChange_count_zero env (runCycle env s0 p).1 hc hfind hmono

/-- C6 at a concrete input: a one-commit repository pulled to no effect
twice reports 0 new commits on the second run. -/
theorem runCycle_second_count_zero_app :
    (runCycle plainEnv
      (runCycle plainEnv ⟨[⟨1, [], 10, "a", "m"⟩], 1, [], [⟨1, [], 10, "a", "m"⟩]⟩ id).1
      id).2 = 0 :=
  runCycle_second_count_zero plainEnv ⟨[⟨1, [], 10, "a", "m"⟩], 1, [], [⟨1, [], 10, "a", "m"⟩]⟩
    id ⟨1, [], 10, "a", "m"⟩ (by decide) (by decide)

/-- A repository whose head (commit 2, time 50) has an ancestor
(commit 1) whose committer clock was ahead (time 100): a real git
history produced by a skewed clock. -/
def skewRepo : GitState :=
  ⟨[⟨2, [1], 50, "a", "m2"⟩, ⟨1, [], 100, "a", "m1"⟩], 2, [],
   [⟨2, [1], 50, "a", "m2"⟩, ⟨1, [], 100, "a", "m1"⟩]⟩

/-- C6, counterexample to the claim as stated: on `skewRepo`, two sync
cycles in a row with no intervening remote changes still count 1 commit
on the second run — the ancestor stamped after the marker's head is
re-reported every run. -/
theorem runCycle_twice_count_one :
    (runCycle plainEnv (runCycle plainEnv skewRepo id).1 id).2 = 1 := by decide

/-- Ancestry is monotone under growing the object store. -/
theorem Ancestor.mono {cs cs' : List Commit} (hsub : ∀ c ∈ cs, c ∈ cs') {a b : Nat}
    (h : Ancestor cs a b) : Ancestor cs' a b := by
  induction h with
  | refl => exact .refl _
  | step c hc hb p hp ha ih => exact .step c (hsub c hc) hb p hp ih

/-- After the marker write, the marker records the written hash. -/
theorem markerHash_setReference (s : GitState) (h : Nat) :
    markerHash (s.setReference ⟨TagName, h⟩) = some h := by
  unfold markerHash
  have htags : (s.setReference ⟨TagName, h⟩).tags
      = (TagName, h) :: s.tags.filter (fun p => p.1 ≠ TagName) := rfl
  rw [htags, List.find?_cons_of_pos _ (by simp)]
  rfl

/-- A run is exactly: marker to the pre-pull head, then a fast-forward
pull of the marked state. -/
theorem runStep_pullFF {s s' : GitState} (h : RunStep s s') :
    PullFF (s.setReference ⟨TagName, s.headHash⟩) s' := by
  obtain ⟨s1, tag, heq, hpf⟩ := h
  rw [CreateOrModifyGitTag_TagName_ok] at heq
  have hs1 : s.setReference ⟨TagName, s.headHash⟩ = s1 := congrArg Prod.fst heq
  rw [← hs1] at hpf
  exact hpf

/-- The per-repository marker invariant: head well-formed, and the
marker, when present, an ancestor-or-equal of head that exists in the
object store. -/
def MarkerInv (s : GitState) : Prop :=
  s.WF ∧ ∀ h, markerHash s = some h → Ancestor s.commits h s.headHash ∧ h ∈ s.hashes

/-- One run from a well-formed state establishes the invariant and leaves
the marker at the pre-pull head. -/
theorem runStep_markerInv {s s' : GitState} (hwf : s.WF) (hstep : RunStep s s') :
    MarkerInv s' ∧ markerHash s' = some s.headHash := by
  have hpf := runStep_pullFF hstep
  have hmk : markerHash s' = some s.headHash := by
    unfold markerHash
    rw [hpf.tags_eq]
    have hset := markerHash_setReference s s.headHash
    unfold markerHash at hset
    exact hset
  have hmem : s.headHash ∈ s'.hashes := by
    have hwfs : s.headHash ∈ s.commits.map Commit.hash := hwf
    obtain ⟨c, hc, hch⟩ := List.mem_map.mp hwfs
    exact List.mem_map.mpr ⟨c, hpf.commits_sub c hc, hch⟩
  refine ⟨⟨hpf.head_wf, ?_⟩, hmk⟩
  intro h hh
  rw [hmk] at hh
  have hh' : h = s.headHash := (Option.some.inj hh).symm
  subst hh'
  exact ⟨hpf.ff, hmem⟩

/-- The invariant is preserved along any sequence of runs. -/
theorem runTrace_markerInv {s t : GitState} (htr : RunTrace s t) (hinv : MarkerInv s) :
    MarkerInv t := by
  induction htr with
  | refl => exact hinv
  | step htu hstep ih => exact (runStep_markerInv ih.1 hstep).1

/-- C7: once the marker has been moved (at least one run from a
well-formed state), after every further run the marker records exactly
the head at the previous run's completion, is an ancestor-or-equal of the
repository's current head, names a commit present in the repository's
history, never regresses (the previous marker is an ancestor-or-equal of
the new one), and the run's only reference-store change is this marker
write by the sync step itself. -/
theorem marker_monotone_invariant (s0 s1 s s' : GitState) (hwf : s0.WF)
    (hfirst : RunStep s0 s1) (htr : RunTrace s1 s) (hstep : RunStep s s') :
    markerHash s' = some s.headHash
    ∧ Ancestor s'.commits s.headHash s'.headHash
    ∧ s.headHash ∈ s'.hashes
    ∧ (∀ h0, markerHash s = some h0 → Ancestor s'.commits h0 s.headHash)
    ∧ s'.tags = (s.setReference ⟨TagName, s.headHash⟩).tags := by
  have hinv1 : MarkerInv s1 := (runStep_markerInv hwf hfirst).1
  have hinvs : MarkerInv s := runTrace_markerInv htr hinv1
  have hpf := runStep_pullFF hstep
  have hstepInv := runStep_markerInv hinvs.1 hstep
  refine ⟨hstepInv.2, hpf.ff, ?_, ?_, hpf.tags_eq⟩
  · have hwfs : s.headHash ∈ s.commits.map Commit.hash := hinvs.1
    obtain ⟨c, hc, hch⟩ := List.mem_map.mp hwfs
    exact List.mem_map.mpr ⟨c, hpf.commits_sub c hc, hch⟩
  · intro h0 hh0
    exact Ancestor.mono (fun c hc => hpf.commits_sub c hc) (hinvs.2 h0 hh0).1

/-- A one-commit repository with no tags yet. -/
def oneCommitRepo : GitState := ⟨[⟨1, [], 10, "a", "m"⟩], 1, [], [⟨1, [], 10, "a", "m"⟩]⟩

/-- `oneCommitRepo` after the marker write. -/
def oneCommitMarked : GitState := oneCommitRepo.setReference ⟨TagName, 1⟩

/-- C7 at a concrete input: two runs (the second pulling nothing) leave
the marker at the head, an ancestor of itself, present in history. -/
theorem marker_monotone_invariant_app :
    markerHash oneCommitMarked = some oneCommitMarked.headHash
    ∧ Ancestor oneCommitMarked.commits oneCommitMarked.headHash oneCommitMarked.headHash
    ∧ oneCommitMarked.headHash ∈ oneCommitMarked.hashes
    ∧ (∀ h0, markerHash oneCommitMarked = some h0 →
        Ancestor oneCommitMarked.commits h0 oneCommitMarked.headHash)
    ∧ oneCommitMarked.tags
      = (oneCommitMarked.setReference ⟨TagName, oneCommitMarked.headHash⟩).tags := by
  have hfirst : RunStep oneCommitRepo oneCommitMarked :=
    ⟨oneCommitMarked, ⟨TagName, 1⟩, by decide,
      ⟨rfl, fun c hc => hc, by decide, Ancestor.refl _⟩⟩
  have hstep : RunStep oneCommitMarked oneCommitMarked :=
    ⟨oneCommitMarked, ⟨TagName, 1⟩, by decide,
      ⟨by decide, fun c hc => hc, by decide, Ancestor.refl _⟩⟩
  exact marker_monotone_invariant oneCommitRepo oneCommitMarked oneCommitMarked oneCommitMarked
    (show oneCommitRepo.headHash ∈ oneCommitRepo.hashes by decide)
    hfirst (RunTrace.refl oneCommitMarked) hstep
